import Mathlib

/-!
# Verification development for the getcou-rs segment downloader

This file gives a shallow embedding of `src/main.rs` and proves/refutes the
frozen claims about it.  Strings from the Rust side are modelled as
`List Char`; byte blobs are modelled as lists (the element type is a
parameter where only the bytes' identity matters).  Network I/O is modelled
by oracles: a fetch oracle maps an attempt number to the response that
attempt observes, and the concurrent scheduler is driven by an outcome
oracle (does segment `i`'s download succeed?) together with a choice
function selecting which in-flight future completes next, which captures
the arbitrary completion order of `FuturesUnordered`.
-/

set_option maxHeartbeats 1000000

namespace Getcou

/-! ## Line splitting and line classification (main.rs lines 41-61, 119-124)

`rustLines` embeds Rust's `str::lines()`: split at `'\n'`, strip one
trailing `'\r'` from each piece, and do not emit a final empty piece when
the string ends with a terminator.  The accumulator holds the current line
reversed, so a trailing `'\r'` is its head. -/

def finishLine (cur : List Char) : List Char :=
  (match cur with
    | '\r' :: r => r
    | l => l).reverse

def linesAux : List Char → List Char → List (List Char)
  | [], cur => if cur.isEmpty then [] else [finishLine cur]
  | c :: rest, cur =>
    if c = '\n' then finishLine cur :: linesAux rest []
    else linesAux rest (c :: cur)

def rustLines (content : List Char) : List (List Char) :=
  linesAux content []

/-- Embeds Rust `str::contains` for a literal pattern: the pattern occurs
as a contiguous substring. -/
def infixOf (pat : List Char) : List Char → Bool
  | [] => pat.isEmpty
  | c :: rest => pat.isPrefixOf (c :: rest) || infixOf pat rest

/-- `line.starts_with("http")` (main.rs lines 47, 55, 121). -/
def isHttpLine (l : List Char) : Bool :=
  "http".data.isPrefixOf l

/-- The per-line predicate of `contains_direct_segments` (main.rs 120-123):
starts with the URL scheme marker and contains `".ts"` or `".bin"`. -/
def isDirectSegmentLine (l : List Char) : Bool :=
  isHttpLine l && (infixOf ".ts".data l || infixOf ".bin".data l)

/-- `contains_direct_segments` (main.rs 119-124). -/
def contains_direct_segments (content : List Char) : Bool :=
  (rustLines content).any isDirectSegmentLine

/-- The work-list extraction applied to the secondary content
(main.rs 53-56): every line starting with the scheme marker, in file
order. -/
def httpLines (content : List Char) : List (List Char) :=
  (rustLines content).filter isHttpLine

/-! ## Error model (section 7 of the spec, `anyhow` errors in the code) -/

inductive FetchErr where
  | transport (id : Nat)
  | httpStatus (code : Nat)
  | bodyRead (id : Nat)
  | writeFile (id : Nat)
  | unknown
  deriving DecidableEq

inductive RunErr where
  | noSecondaryPlaylist
  | secondaryFetchFailed (e : FetchErr)
  | noSegments
  deriving DecidableEq

/-- Manifest resolution, embedding `run` lines 41-61: if the main playlist
contains a direct-segment line use it as the secondary content, otherwise
fetch the last scheme-prefixed line (scanning lines from the end); then the
work list is every scheme-prefixed line of the secondary content, and an
empty work list is an error. -/
def resolveSegments (fetch : List Char → Except FetchErr (List Char))
    (mainPlaylist : List Char) : Except RunErr (List (List Char)) :=
  let sec : Except RunErr (List Char) :=
    if contains_direct_segments mainPlaylist then .ok mainPlaylist
    else
      match (rustLines mainPlaylist).reverse.find? isHttpLine with
      | none => .error .noSecondaryPlaylist
      | some lastLine =>
        match fetch lastLine with
        | .ok s => .ok s
        | .error e => .error (.secondaryFetchFailed e)
  match sec with
  | .error e => .error e
  | .ok secondary =>
    let segs := httpLines secondary
    if segs.isEmpty then .error .noSegments else .ok segs

/-! ## Retrying fetcher (main.rs 126-170)

An attempt's observable behaviour is given by an oracle from the 0-based
attempt number.  `resp status body` models `Ok(resp)` with the given
status, where `body` is the result of subsequently reading the body
(`resp.text()` / `resp.bytes()`); `tErr` models `Err(e)` from `send()`. -/

/-- `200 <= s < 300`, embedding `StatusCode::is_success`. -/
def isSuccessStatus (s : Nat) : Bool :=
  decide (200 ≤ s ∧ s < 300)

inductive ManifestResp where
  | tErr (e : FetchErr)
  | resp (status : Nat) (body : Except FetchErr (List Char))

deriving instance DecidableEq for Except

/-- Result of a fetch, together with its observable retry behaviour:
total attempts made, the milliseconds actually slept between attempts
(in order), and the delays printed by the `Retry ... in {delay}s` message
(in seconds, in order). -/
structure FetchTrace (β : Type) where
  result : Except FetchErr β
  attempts : Nat
  sleptMs : List Nat
  announcedDelays : List Nat
  deriving DecidableEq

/-- One retry boundary of `download_with_retry` (main.rs 139-143): announce
`2^attempt` seconds, then actually sleep `Duration::from_millis(100)`. -/
def retryStep (attempt : Nat) (t : FetchTrace β) : FetchTrace β :=
  ⟨t.result, t.attempts, 100 :: t.sleptMs, 2 ^ attempt :: t.announcedDelays⟩

/-- The `for attempt in 0..=max_retries` loop of `download_with_retry`
(main.rs 130-144).  `fuel` counts the remaining iterations
(`max_retries + 1 - attempt`); `lastErr` is the `last_error` variable.
When the final attempt fails the loop exits and returns
`Err(last_error.unwrap_or(..))`, which at that point holds exactly the
final attempt's error. -/
def dwrGo (oracle : Nat → ManifestResp) (maxRetries : Nat) :
    Nat → Nat → Option FetchErr → FetchTrace (List Char)
  | 0, attempt, lastErr => ⟨.error (lastErr.getD .unknown), attempt, [], []⟩
  | fuel + 1, attempt, _ =>
    match oracle attempt with
    | .tErr e =>
      if attempt < maxRetries then
        retryStep attempt (dwrGo oracle maxRetries fuel (attempt + 1) (some e))
      else ⟨.error e, attempt + 1, [], []⟩
    | .resp status body =>
      if isSuccessStatus status then ⟨body, attempt + 1, [], []⟩
      else if attempt < maxRetries then
        retryStep attempt
          (dwrGo oracle maxRetries fuel (attempt + 1) (some (.httpStatus status)))
      else ⟨.error (.httpStatus status), attempt + 1, [], []⟩

/-- `download_with_retry` (main.rs 126-147). -/
def download_with_retry (oracle : Nat → ManifestResp) (maxRetries : Nat) :
    FetchTrace (List Char) :=
  dwrGo oracle maxRetries (maxRetries + 1) 0 none

/-- A segment attempt: a transport error, or a response with a status, the
result of reading the body bytes, and the result of writing them to the
scratch file. -/
inductive SegmentResp where
  | tErr (e : FetchErr)
  | resp (status : Nat) (bytes : Except FetchErr (List Nat))
      (write : Except FetchErr Unit)

/-- What a success-status segment attempt returns (main.rs 154-158): the
`?` on the body read and on the file write surfaces those errors
immediately. -/
def segAttemptResult (bytes : Except FetchErr (List Nat))
    (write : Except FetchErr Unit) : Except FetchErr Unit :=
  match bytes with
  | .error e => .error e
  | .ok _ =>
    match write with
    | .error e => .error e
    | .ok _ => .ok ()

/-- One retry boundary of `download_segment` (main.rs 163-166): the
computed `delay` is dead code there (never printed, never used); the task
sleeps `Duration::from_millis(100)`. -/
def segRetryStep (t : FetchTrace β) : FetchTrace β :=
  ⟨t.result, t.attempts, 100 :: t.sleptMs, t.announcedDelays⟩

/-- The `for attempt in 0..=max_retries` loop of `download_segment`
(main.rs 152-167). -/
def dsGo (oracle : Nat → SegmentResp) (maxRetries : Nat) :
    Nat → Nat → Option FetchErr → FetchTrace Unit
  | 0, attempt, lastErr => ⟨.error (lastErr.getD .unknown), attempt, [], []⟩
  | fuel + 1, attempt, _ =>
    match oracle attempt with
    | .tErr e =>
      if attempt < maxRetries then
        segRetryStep (dsGo oracle maxRetries fuel (attempt + 1) (some e))
      else ⟨.error e, attempt + 1, [], []⟩
    | .resp status bytes write =>
      if isSuccessStatus status then
        ⟨segAttemptResult bytes write, attempt + 1, [], []⟩
      else if attempt < maxRetries then
        segRetryStep
          (dsGo oracle maxRetries fuel (attempt + 1) (some (.httpStatus status)))
      else ⟨.error (.httpStatus status), attempt + 1, [], []⟩

/-- `download_segment` (main.rs 149-170). -/
def download_segment (oracle : Nat → SegmentResp) (maxRetries : Nat) :
    FetchTrace Unit :=
  dsGo oracle maxRetries (maxRetries + 1) 0 none

/-- `run` fetches the main and secondary playlists with `max_retries = 3`
(main.rs 38, 49). -/
def mainPlaylistMaxRetries : Nat := 3

/-- `run` downloads each segment with `max_retries = 12` (main.rs 75). -/
def segmentMaxRetries : Nat := 12

/-! ## Bounded download scheduler (main.rs 63-107)

Segments are identified by their index.  `outcome i` says whether segment
`i`'s download task eventually returns `Ok`; `pick k` chooses (mod the
in-flight count) which in-flight future the `k`-th `futures.next().await`
returns, modelling the arbitrary completion order of `FuturesUnordered`.
`trace` samples the in-flight count: after each push, and at each await
(while the awaited futures are still in flight). -/

def concurrencyLimit : Nat := 10

inductive DrainRes where
  | cont (k : Nat) (inflight : List Nat) (completed : List Nat) (trace : List Nat)
  | fail (failed : Nat) (dropped : List Nat) (completed : List Nat) (trace : List Nat)
  deriving DecidableEq

/-- A `while futures.len() >= limit { futures.next().await ... }` loop
(main.rs 79-92 with `limit = 10`, main.rs 96-107 with `limit = 1`).
On a task error the loop returns at once (`return Err(e)`), so the futures
still in flight are dropped, never polled again: they appear in the
`fail` constructor as `dropped`.  `fuel` bounds the iterations; it is
always called with `fuel = inflight.length`, which suffices since every
iteration removes one future. -/
def drainLoop (outcome : Nat → Bool) (pick : Nat → Nat) (limit : Nat) :
    Nat → Nat → List Nat → List Nat → List Nat → DrainRes
  | 0, k, inflight, completed, trace => .cont k inflight completed trace
  | fuel + 1, k, inflight, completed, trace =>
    if inflight.length < limit then .cont k inflight completed trace
    else if outcome (inflight.getD (pick k % inflight.length) 0) then
      drainLoop outcome pick limit fuel (k + 1)
        (inflight.eraseIdx (pick k % inflight.length))
        (completed ++ [inflight.getD (pick k % inflight.length) 0])
        (trace ++ [inflight.length])
    else
      .fail (inflight.getD (pick k % inflight.length) 0)
        (inflight.eraseIdx (pick k % inflight.length)) completed
        (trace ++ [inflight.length])

structure SchedOut where
  err : Option Nat
  completed : List Nat
  dropped : List Nat
  unsubmitted : List Nat
  trace : List Nat
  deriving DecidableEq

/-- The segment-download loop of `run` (main.rs 69-107): push each segment
future in work-list order, drain while the in-flight set is at the limit,
then drain the remainder; on the first task error return it immediately,
dropping the in-flight futures and never submitting the rest. -/
def schedGo (outcome : Nat → Bool) (pick : Nat → Nat) :
    List Nat → Nat → List Nat → List Nat → List Nat → SchedOut
  | [], k, inflight, completed, trace =>
    match drainLoop outcome pick 1 inflight.length k inflight completed trace with
    | .cont _ infl' comp' trace' => ⟨none, comp', infl', [], trace'⟩
    | .fail x dropped comp' trace' => ⟨some x, comp', dropped, [], trace'⟩
  | i :: rest, k, inflight, completed, trace =>
    match drainLoop outcome pick concurrencyLimit (inflight.length + 1) k
        (inflight ++ [i]) completed (trace ++ [inflight.length + 1]) with
    | .cont k' infl'' comp' trace'' => schedGo outcome pick rest k' infl'' comp' trace''
    | .fail x dropped comp' trace'' => ⟨some x, comp', dropped, rest, trace''⟩

/-- Scheduling the whole work list `0, 1, ..., n-1` (main.rs 69-107). -/
def schedule (outcome : Nat → Bool) (pick : Nat → Nat) (n : Nat) : SchedOut :=
  schedGo outcome pick (List.range n) 0 [] [] []

/-! ## Scratch-file naming and ordered assembly (main.rs 70, 172-188) -/

/-- Decimal digits of `n`, most significant first, embedding Rust's
decimal formatting.  Structural recursion on a fuel bound (`n` itself)
so that the kernel can evaluate it. -/
def decAux : Nat → Nat → List Char
  | 0, _ => []
  | fuel + 1, n =>
    if n < 10 then [Nat.digitChar n]
    else decAux fuel (n / 10) ++ [Nat.digitChar (n % 10)]

def decDigits (n : Nat) : List Char := decAux (n + 1) n

/-- Zero-fill to minimum width `w`, as in the `{:05}` format spec. -/
def zeroPad (w : Nat) (l : List Char) : List Char :=
  List.replicate (w - l.length) '0' ++ l

/-- The scratch file name `format!("{:05}.ts", i)` (main.rs 70). -/
def segName (i : Nat) : List Char :=
  zeroPad 5 (decDigits i) ++ ".ts".data

/-- Strict lexicographic order on char lists, embedding the ordering Rust
uses to `sort()` the scratch paths (byte-wise comparison; a strict prefix
sorts first). -/
def lexLt : List Char → List Char → Bool
  | _, [] => false
  | [], _ :: _ => true
  | a :: as, b :: bs =>
    if a < b then true else if b < a then false else lexLt as bs

def lexLe (a b : List Char) : Bool := !lexLt b a

/-- The sort key relation on directory entries `(name, contents)`:
compare by name. -/
def nameLe {β : Type} (a b : List Char × List β) : Prop :=
  lexLe a.1 b.1 = true

instance {β : Type} : DecidableRel (@nameLe β) :=
  fun _ _ => inferInstanceAs (Decidable (_ = true))

/-- `p.extension() == Some("ts")` for our scratch entries (main.rs 177). -/
def extIsTs (name : List Char) : Bool :=
  decide (3 < name.length) && ".ts".data.isSuffixOf name

inductive FsErr where
  | ioError
  deriving DecidableEq

/-- `concatenate_files` (main.rs 172-188).  The scratch directory is
modelled as its listing: `(file name, file contents)` pairs, in the
arbitrary order `read_dir` yields them.  The function keeps the `.ts`
entries, sorts them by path (a stable sort by name — `Vec::sort` is
stable), and concatenates their contents.  Its only error paths are file
I/O failures, which the filesystem model does not produce: there is no
check that any particular name is present. -/
def concatenate_files {β : Type} (dir : List (List Char × List β)) :
    Except FsErr (List β) :=
  let entries := dir.filter fun e => extIsTs e.1
  let sorted := List.insertionSort nameLe entries
  .ok (sorted.map Prod.snd).flatten

/-! ## Remaining model definitions: sort keys, fixed-width digits, test
oracles -/

/-- The strict sort-key relation on directory entries. -/
def nameLt {β : Type} (a b : List Char × List β) : Prop :=
  lexLt a.1 b.1 = true

instance {β : Type} : DecidableRel (@nameLt β) :=
  fun _ _ => inferInstanceAs (Decidable (_ = true))

/-- Exactly `w` decimal digits of `n` (most significant first), the normal
form of a `{:0w}`-padded number when `n < 10 ^ w`. -/
def fixedDigits : Nat → Nat → List Char
  | 0, _ => []
  | w + 1, n => fixedDigits w (n / 10) ++ [Nat.digitChar (n % 10)]

def DrainRes.traceOf : DrainRes → List Nat
  | .cont _ _ _ t => t
  | .fail _ _ _ t => t

def DrainRes.isCont : DrainRes → Bool
  | .cont _ _ _ _ => true
  | .fail _ _ _ _ => false

/-- The error recorded in `last_error` by a manifest attempt when it is a
retryable failure (transport error or non-success status); `none` when the
attempt's status is a success. -/
def mFail : ManifestResp → Option FetchErr
  | .tErr e => some e
  | .resp s _ => if isSuccessStatus s then none else some (.httpStatus s)

/-- Segment analogue of `mFail`. -/
def sFail : SegmentResp → Option FetchErr
  | .tErr e => some e
  | .resp s _ _ => if isSuccessStatus s then none else some (.httpStatus s)

/-- Outcome oracle for which exactly segment 0's download task fails. -/
def failOnZero : Nat → Bool := fun i => decide (i ≠ 0)

/-- A manifest-fetch oracle for which every attempt fails at the transport
layer. -/
def allTransportFail : Nat → ManifestResp := fun n => .tErr (.transport n)

/-- A segment-fetch oracle for which every attempt fails at the transport
layer. -/
def allSegTransportFail : Nat → SegmentResp := fun n => .tErr (.transport n)

/-- A manifest-fetch oracle whose every attempt returns a success status
whose body read then fails. -/
def bodyFailOracle : Nat → ManifestResp :=
  fun _ => .resp 200 (.error (.bodyRead 0))

/-- A manifest-fetch oracle that fails once, then succeeds with body
`"ok"`. -/
def okAfterOneFail : Nat → ManifestResp := fun n =>
  if n = 0 then .tErr (.transport 0) else .resp 200 (.ok ['o', 'k'])

/-- A segment-fetch oracle that fails twice, then succeeds. -/
def segOkAfterTwoFails : Nat → SegmentResp := fun n =>
  if n < 2 then .tErr (.transport n) else .resp 200 (.ok [1, 2]) (.ok ())

/-- A manifest-fetch oracle: one transport failure, then a success status
whose body read fails. -/
def bodyFailAfterOneFail : Nat → ManifestResp := fun n =>
  if n = 0 then .tErr (.transport 0) else .resp 200 (.error (.bodyRead 7))

/-- A segment-fetch oracle whose first attempt gets a success status but
fails reading the body bytes. -/
def byteFailSegOracle : Nat → SegmentResp :=
  fun _ => .resp 200 (.error (.bodyRead 9)) (.ok ())

/-- A segment-fetch oracle whose first attempt gets a success status and
reads the body, but fails writing the blob. -/
def writeFailSegOracle : Nat → SegmentResp :=
  fun _ => .resp 200 (.ok [1, 2]) (.error (.writeFile 3))

/-- Distinct fixed-length (six-byte) blob contents for the C1
counterexample. -/
def blob6 (i : Nat) : List Char := fixedDigits 6 i

/-- The lexicographic ≤ on names as a `Prop` relation, for sorting. -/
def lexLeP (a b : List Char) : Prop := lexLe a b = true

instance : DecidableRel lexLeP :=
  fun _ _ => inferInstanceAs (Decidable (_ = true))

/-! ## Lexicographic order: basic laws -/

theorem lexLt_irrefl : ∀ l : List Char, lexLt l l = false
  | [] => rfl
  | a :: as => by
    unfold lexLt
    simp [lt_irrefl, lexLt_irrefl as]

theorem lexLt_asymm : ∀ (a b : List Char), lexLt a b = true → lexLt b a = false
  | _, [], h => by simp [lexLt] at h
  | [], _ :: _, _ => rfl
  | a :: as, b :: bs, h => by
    unfold lexLt at h ⊢
    rcases lt_trichotomy a b with hlt | heq | hgt
    · simp [hlt, lt_asymm hlt]
    · subst heq
      simp only [lt_irrefl, if_false] at h ⊢
      exact lexLt_asymm as bs h
    · simp [hgt, lt_asymm hgt] at h

theorem lexLt_eq_of_not : ∀ (a b : List Char), lexLt a b = false → lexLt b a = false → a = b
  | [], [], _, _ => rfl
  | [], _ :: _, h1, _ => by simp [lexLt] at h1
  | _ :: _, [], _, h2 => by simp [lexLt] at h2
  | a :: as, b :: bs, h1, h2 => by
    unfold lexLt at h1 h2
    rcases lt_trichotomy a b with hlt | heq | hgt
    · simp [hlt] at h1
    · subst heq
      simp only [lt_irrefl, if_false] at h1 h2
      rw [lexLt_eq_of_not as bs h1 h2]
    · simp [hgt] at h2

theorem lexLt_trans : ∀ (a b c : List Char),
    lexLt a b = true → lexLt b c = true → lexLt a c = true
  | _, _, [], _, h2 => by simp [lexLt] at h2
  | [], _, _ :: _, _, _ => rfl
  | _ :: _, [], _ :: _, h1, _ => by simp [lexLt] at h1
  | a :: as, b :: bs, c :: cs, h1, h2 => by
    unfold lexLt at h1 h2 ⊢
    by_cases hab : a < b
    · by_cases hbc : b < c
      · simp [lt_trans hab hbc]
      · by_cases hcb : c < b
        · simp [hbc, hcb] at h2
        · have hbceq : b = c := le_antisymm (le_of_not_lt hcb) (le_of_not_lt hbc)
          subst hbceq
          simp [hab]
    · by_cases hba : b < a
      · simp [hab, hba] at h1
      · have habeq : a = b := le_antisymm (le_of_not_lt hba) (le_of_not_lt hab)
        subst habeq
        simp only [lt_irrefl, if_false] at h1
        by_cases hac : a < c
        · simp [hac]
        · by_cases hca : c < a
          · simp [hac, hca] at h2
          · simp only [hac, hca, if_false] at h2 ⊢
            exact lexLt_trans as bs cs h1 h2

theorem lexLe_refl (a : List Char) : lexLe a a = true := by
  simp [lexLe, lexLt_irrefl]

theorem lexLe_total (a b : List Char) : lexLe a b = true ∨ lexLe b a = true := by
  unfold lexLe
  cases h : lexLt b a
  · simp
  · simp [lexLt_asymm b a h]

theorem lexLe_trans (a b c : List Char) (h1 : lexLe a b = true)
    (h2 : lexLe b c = true) : lexLe a c = true := by
  unfold lexLe at h1 h2 ⊢
  rw [Bool.not_eq_true'] at h1 h2 ⊢
  cases hca : lexLt c a
  · rfl
  · cases hab : lexLt a b
    · rw [lexLt_eq_of_not a b hab h1] at hca
      rw [hca] at h2
      exact h2
    · have := lexLt_trans c a b hca hab
      rw [this] at h2
      exact h2

theorem lexLe_iff (a b : List Char) :
    lexLe a b = true ↔ (lexLt a b = true ∨ a = b) := by
  constructor
  · intro h
    unfold lexLe at h
    rw [Bool.not_eq_true'] at h
    cases hab : lexLt a b
    · exact Or.inr (lexLt_eq_of_not a b hab h)
    · exact Or.inl rfl
  · rintro (h | rfl)
    · unfold lexLe
      rw [lexLt_asymm a b h]
      rfl
    · exact lexLe_refl a

instance {β : Type} : IsTrans (List Char × List β) nameLe :=
  ⟨fun _ _ _ => lexLe_trans _ _ _⟩

instance {β : Type} : IsTotal (List Char × List β) nameLe :=
  ⟨fun a b => lexLe_total a.1 b.1⟩

instance {β : Type} : IsAntisymm (List Char × List β) nameLt :=
  ⟨fun a b h1 h2 => by
    have := lexLt_asymm a.1 b.1 h1
    unfold nameLt at h2
    rw [h2] at this
    cases this⟩

/-! ## Decimal digit strings: fixed-width normal form, monotonicity,
injectivity -/

theorem fixedDigits_length : ∀ (w n : Nat), (fixedDigits w n).length = w
  | 0, _ => rfl
  | w + 1, n => by simp [fixedDigits, fixedDigits_length w]

theorem fixedDigits_zero : ∀ w : Nat, fixedDigits w 0 = List.replicate w '0'
  | 0 => rfl
  | w + 1 => by
    show fixedDigits w (0 / 10) ++ [Nat.digitChar (0 % 10)] = _
    norm_num
    rw [fixedDigits_zero w, List.replicate_succ']
    rfl

theorem decAux_congr (n : Nat) : ∀ (f g : Nat), n < f → n < g →
    decAux f n = decAux g n := by
  induction n using Nat.strong_induction_on with
  | _ n ih =>
    intro f g hf hg
    obtain ⟨f', rfl⟩ : ∃ f', f = f' + 1 := ⟨f - 1, by omega⟩
    obtain ⟨g', rfl⟩ : ∃ g', g = g' + 1 := ⟨g - 1, by omega⟩
    show decAux (f' + 1) n = decAux (g' + 1) n
    unfold decAux
    by_cases h : n < 10
    · simp [h]
    · simp only [h, if_false]
      have hlt : n / 10 < n := Nat.div_lt_self (by omega) (by omega)
      rw [ih (n / 10) hlt f' (g' + 1) (by omega) (by omega),
        ih (n / 10) hlt (g' + 1) g' (by omega) (by omega)]

theorem decDigits_eq (n : Nat) :
    decDigits n =
      if n < 10 then [Nat.digitChar n]
      else decDigits (n / 10) ++ [Nat.digitChar (n % 10)] := by
  show decAux (n + 1) n = _
  unfold decAux
  by_cases h : n < 10
  · simp [h]
  · simp only [h, if_false]
    have hlt : n / 10 < n := Nat.div_lt_self (by omega) (by omega)
    rw [decAux_congr (n / 10) n (n / 10 + 1) hlt (by omega)]
    rfl

theorem decDigits_ne_nil (n : Nat) : decDigits n ≠ [] := by
  rw [decDigits_eq n]
  by_cases h : n < 10 <;> simp [h]

theorem decDigits_length_le (n : Nat) : ∀ w : Nat, 1 ≤ w → n < 10 ^ w →
    (decDigits n).length ≤ w := by
  induction n using Nat.strong_induction_on with
  | _ n ih =>
    intro w hw hn
    rw [decDigits_eq n]
    by_cases h : n < 10
    · simpa [h] using hw
    · simp only [h, if_false, List.length_append, List.length_cons,
        List.length_nil]
      have hw2 : 2 ≤ w := by
        by_contra hcon
        have : w = 1 := by omega
        subst this
        simp at hn
        omega
      have hdiv : n / 10 < 10 ^ (w - 1) := by
        rw [Nat.div_lt_iff_lt_mul (by norm_num : (0:Nat) < 10)]
        calc n < 10 ^ w := hn
          _ = 10 ^ (w - 1) * 10 := by
            rw [← pow_succ]
            congr 1
            omega
      have := ih (n / 10) (Nat.div_lt_self (by omega) (by omega)) (w - 1)
        (by omega) hdiv
      omega

theorem zeroPad_decDigits : ∀ (w n : Nat), 1 ≤ w → n < 10 ^ w →
    zeroPad w (decDigits n) = fixedDigits w n := by
  intro w
  induction w with
  | zero => omega
  | succ w ih =>
    intro n _ hn
    rw [decDigits_eq n]
    by_cases h : n < 10
    · simp only [h, if_true]
      show List.replicate (w + 1 - 1) '0' ++ [Nat.digitChar n] =
        fixedDigits w (n / 10) ++ [Nat.digitChar (n % 10)]
      rw [Nat.div_eq_of_lt h, Nat.mod_eq_of_lt h, fixedDigits_zero]
      rfl
    · simp only [h, if_false]
      have hw1 : 1 ≤ w := by
        rcases Nat.eq_zero_or_pos w with rfl | h1
        · simp at hn
          omega
        · exact h1
      have hdiv : n / 10 < 10 ^ w := by
        rw [Nat.div_lt_iff_lt_mul (by norm_num : (0:Nat) < 10)]
        calc n < 10 ^ (w + 1) := hn
          _ = 10 ^ w * 10 := by rw [pow_succ]
      have hL : (decDigits (n / 10)).length ≤ w :=
        decDigits_length_le (n / 10) w hw1 hdiv
      unfold zeroPad
      have hlen : (decDigits (n / 10) ++ [Nat.digitChar (n % 10)]).length =
          (decDigits (n / 10)).length + 1 := by simp
      rw [hlen, show w + 1 - ((decDigits (n / 10)).length + 1) =
          w - (decDigits (n / 10)).length from by omega,
        ← List.append_assoc]
      rw [show List.replicate (w - (decDigits (n / 10)).length) '0' ++
          decDigits (n / 10) = zeroPad w (decDigits (n / 10)) from rfl]
      rw [ih (n / 10) hw1 hdiv]
      rfl

theorem digitChar_mono : ∀ a < 10, ∀ b < 10, a < b →
    Nat.digitChar a < Nat.digitChar b := by decide

theorem digitChar_inj : ∀ a < 10, ∀ b < 10,
    Nat.digitChar a = Nat.digitChar b → a = b := by decide

theorem lexLt_append_last : ∀ (a b : List Char) (x y : Char),
    a.length = b.length → (lexLt a b = true ∨ (a = b ∧ x < y)) →
    lexLt (a ++ [x]) (b ++ [y]) = true
  | [], [], x, y, _, h => by
    rcases h with h | ⟨_, hxy⟩
    · simp [lexLt] at h
    · simp [lexLt, hxy]
  | [], _ :: _, _, _, hlen, _ => by simp at hlen
  | _ :: _, [], _, _, hlen, _ => by simp at hlen
  | a :: as, b :: bs, x, y, hlen, h => by
    simp only [List.cons_append]
    unfold lexLt
    by_cases hab : a < b
    · simp [hab]
    · by_cases hba : b < a
      · exfalso
        rcases h with h | ⟨heq, _⟩
        · unfold lexLt at h
          simp [hab, hba] at h
        · injection heq with h1 _
          subst h1
          exact lt_irrefl a hba
      · simp only [hab, hba, if_false]
        apply lexLt_append_last as bs x y (by simpa using hlen)
        rcases h with h | ⟨heq, hxy⟩
        · unfold lexLt at h
          simp only [hab, hba, if_false] at h
          exact Or.inl h
        · injection heq with _ h2
          exact Or.inr ⟨h2, hxy⟩

theorem lexLt_append_of_lt : ∀ (a b s t : List Char), a.length = b.length →
    lexLt a b = true → lexLt (a ++ s) (b ++ t) = true
  | [], [], _, _, _, h => by simp [lexLt] at h
  | [], _ :: _, _, _, hlen, _ => by simp at hlen
  | _ :: _, [], _, _, hlen, _ => by simp at hlen
  | a :: as, b :: bs, s, t, hlen, h => by
    simp only [List.cons_append]
    unfold lexLt at h ⊢
    by_cases hab : a < b
    · simp [hab]
    · by_cases hba : b < a
      · simp [hab, hba] at h
      · simp only [hab, hba, if_false] at h ⊢
        exact lexLt_append_of_lt as bs s t (by simpa using hlen) h

theorem fixedDigits_mono : ∀ (w i j : Nat), i < j → j < 10 ^ w →
    lexLt (fixedDigits w i) (fixedDigits w j) = true
  | 0, _, _, hij, hj => by
    simp only [pow_zero] at hj
    omega
  | w + 1, i, j, hij, hj => by
    show lexLt (fixedDigits w (i / 10) ++ [Nat.digitChar (i % 10)])
      (fixedDigits w (j / 10) ++ [Nat.digitChar (j % 10)]) = true
    apply lexLt_append_last _ _ _ _
      (by rw [fixedDigits_length, fixedDigits_length])
    have hjd : j / 10 < 10 ^ w := by
      rw [Nat.div_lt_iff_lt_mul (by norm_num : (0:Nat) < 10)]
      calc j < 10 ^ (w + 1) := hj
        _ = 10 ^ w * 10 := by rw [pow_succ]
    rcases Nat.lt_or_ge (i / 10) (j / 10) with h | h
    · exact Or.inl (fixedDigits_mono w _ _ h hjd)
    · have heq : i / 10 = j / 10 :=
        le_antisymm (Nat.div_le_div_right (le_of_lt hij)) h
      refine Or.inr ⟨by rw [heq], ?_⟩
      apply digitChar_mono _ (Nat.mod_lt _ (by norm_num)) _
        (Nat.mod_lt _ (by norm_num))
      omega

theorem fixedDigits_inj : ∀ (w i j : Nat), i < 10 ^ w → j < 10 ^ w →
    fixedDigits w i = fixedDigits w j → i = j
  | 0, _, _, hi, hj, _ => by
    simp only [pow_zero] at hi hj
    omega
  | w + 1, i, j, hi, hj, h => by
    have hlen : (fixedDigits w (i / 10)).length =
        (fixedDigits w (j / 10)).length := by
      rw [fixedDigits_length, fixedDigits_length]
    obtain ⟨h1, h2⟩ := List.append_inj h hlen
    have hd : i % 10 = j % 10 := by
      injection h2 with h2 _
      exact digitChar_inj _ (Nat.mod_lt _ (by norm_num)) _
        (Nat.mod_lt _ (by norm_num)) h2
    have hib : i / 10 < 10 ^ w := by
      rw [Nat.div_lt_iff_lt_mul (by norm_num : (0:Nat) < 10)]
      calc i < 10 ^ (w + 1) := hi
        _ = 10 ^ w * 10 := by rw [pow_succ]
    have hjb : j / 10 < 10 ^ w := by
      rw [Nat.div_lt_iff_lt_mul (by norm_num : (0:Nat) < 10)]
      calc j < 10 ^ (w + 1) := hj
        _ = 10 ^ w * 10 := by rw [pow_succ]
    have hq : i / 10 = j / 10 := fixedDigits_inj w _ _ hib hjb h1
    omega

theorem segName_mono (i j : Nat) (hij : i < j) (hj : j < 100000) :
    lexLt (segName i) (segName j) = true := by
  have hj5 : j < 10 ^ 5 := by norm_num [hj]
  have hi5 : i < 10 ^ 5 := lt_trans hij hj5
  unfold segName
  rw [zeroPad_decDigits 5 i (by norm_num) hi5,
    zeroPad_decDigits 5 j (by norm_num) hj5]
  exact lexLt_append_of_lt _ _ _ _
    (by rw [fixedDigits_length, fixedDigits_length])
    (fixedDigits_mono 5 i j hij hj5)

theorem extIsTs_segName (i : Nat) : extIsTs (segName i) = true := by
  unfold extIsTs segName
  rw [Bool.and_eq_true]
  constructor
  · have hL : 1 ≤ (decDigits i).length :=
      List.length_pos.mpr (decDigits_ne_nil i)
    simp only [decide_eq_true_eq, zeroPad, List.length_append,
      List.length_replicate]
    have : (".ts".data).length = 3 := rfl
    omega
  · rw [List.isSuffixOf_iff_suffix]
    exact List.suffix_append _ _

/-! ## Generic list lemmas -/

theorem perm_getD_cons_eraseIdx (l : List Nat) (j : Nat) (h : j < l.length) :
    List.Perm l (l.getD j 0 :: l.eraseIdx j) := by
  have hd : l.getD j 0 = l[j] := by
    rw [List.getD_eq_getElem?_getD, List.getElem?_eq_getElem h]
    rfl
  rw [hd, List.eraseIdx_eq_take_drop_succ]
  conv_lhs => rw [← List.take_append_drop j l]
  rw [← List.getElem_cons_drop l j h]
  exact List.perm_middle

theorem flatten_inj_fixed {β : Type} (k : Nat) (hk : 0 < k) :
    ∀ (l₁ l₂ : List (List β)), (∀ x ∈ l₁, x.length = k) →
    (∀ x ∈ l₂, x.length = k) → l₁.flatten = l₂.flatten → l₁ = l₂
  | [], [], _, _, _ => rfl
  | [], b :: bs, _, h2, h => by
    exfalso
    simp only [List.flatten_nil, List.flatten_cons] at h
    have hb : b.length = k := h2 b (by simp)
    have hlen := congrArg List.length h
    simp only [List.length_nil, List.length_append] at hlen
    omega
  | a :: as, [], h1, _, h => by
    exfalso
    simp only [List.flatten_nil, List.flatten_cons] at h
    have ha : a.length = k := h1 a (by simp)
    have hlen := congrArg List.length h
    simp only [List.length_nil, List.length_append] at hlen
    omega
  | a :: as, b :: bs, h1, h2, h => by
    simp only [List.flatten_cons] at h
    have ha : a.length = k := h1 a (by simp)
    have hb : b.length = k := h2 b (by simp)
    obtain ⟨hab, hrest⟩ := List.append_inj h (by rw [ha, hb])
    rw [hab, flatten_inj_fixed k hk as bs (fun x hx => h1 x (by simp [hx]))
      (fun x hx => h2 x (by simp [hx])) hrest]

theorem eq_of_perm_of_map_snd {γ β : Type} :
    ∀ (l₁ l₂ : List (γ × β)), List.Perm l₁ l₂ →
    l₁.map Prod.snd = l₂.map Prod.snd → (l₂.map Prod.snd).Nodup → l₁ = l₂
  | [], [], _, _, _ => rfl
  | [], _ :: _, hp, _, _ => absurd hp.length_eq (by simp)
  | _ :: _, [], hp, _, _ => absurd hp.length_eq (by simp)
  | a :: as, b :: bs, hp, hm, hn => by
    simp only [List.map_cons] at hm
    injection hm with hsnd hms
    simp only [List.map_cons, List.nodup_cons] at hn
    have hab : a = b := by
      have hmem : a ∈ b :: bs := hp.subset (by simp)
      rcases List.mem_cons.mp hmem with h | h
      · exact h
      · exact absurd (hsnd ▸ List.mem_map_of_mem Prod.snd h) hn.1
    subst hab
    rw [eq_of_perm_of_map_snd as bs hp.cons_inv hms hn.2]

/-! ## Sorted directories: the assembler on an index-complete scratch
area -/

theorem pairwise_nameLt_of_le_of_nodup {β : Type}
    (l : List (List Char × List β)) (hle : l.Pairwise nameLe)
    (hnd : (l.map Prod.fst).Nodup) : l.Pairwise nameLt := by
  rw [List.Nodup, List.pairwise_map] at hnd
  refine (hle.and hnd).imp ?_
  rintro a b ⟨h1, h2⟩
  rcases (lexLe_iff a.1 b.1).mp h1 with h | h
  · exact h
  · exact absurd h h2

theorem pairwise_nameLt_target {β : Type} (n : Nat) (hn : n ≤ 100000)
    (blob : Nat → List β) :
    ((List.range n).map fun i => (segName i, blob i)).Pairwise nameLt := by
  rw [List.pairwise_map]
  refine (List.pairwise_lt_range n).imp_of_mem ?_
  intro a b _ hb hab
  exact segName_mono a b hab (lt_of_lt_of_le (List.mem_range.mp hb) hn)

theorem nodup_target_names {β : Type} (n : Nat) (hn : n ≤ 100000)
    (blob : Nat → List β) :
    (((List.range n).map fun i => (segName i, blob i)).map Prod.fst).Nodup := by
  rw [List.map_map, List.Nodup, List.pairwise_map]
  refine (List.pairwise_lt_range n).imp_of_mem ?_
  intro a b _ hb hab heq
  have hmono := segName_mono a b hab (lt_of_lt_of_le (List.mem_range.mp hb) hn)
  have : segName a = segName b := heq
  rw [this, lexLt_irrefl] at hmono
  cases hmono

/-- Whenever the directory listing is (any permutation of) exactly one
`{:05}.ts`-named blob per index below `n ≤ 100000`, `concatenate_files`
outputs the blobs' concatenation in ascending index order. -/
theorem concatenate_of_perm_target {β : Type} (n : Nat) (hn : n ≤ 100000)
    (blob : Nat → List β) (dir : List (List Char × List β))
    (hperm : List.Perm dir ((List.range n).map fun i => (segName i, blob i))) :
    concatenate_files dir = .ok ((List.range n).map blob).flatten := by
  unfold concatenate_files
  have hfilter : dir.filter (fun e => extIsTs e.1) = dir := by
    rw [List.filter_eq_self]
    intro e he
    have hmem : e ∈ (List.range n).map fun i => (segName i, blob i) :=
      hperm.subset he
    obtain ⟨i, _, rfl⟩ := List.mem_map.mp hmem
    exact extIsTs_segName i
  rw [hfilter]
  have hsorted_t : ((List.range n).map fun i => (segName i, blob i)).Pairwise
      nameLt := pairwise_nameLt_target n hn blob
  have hsorted_s : (List.insertionSort nameLe dir).Pairwise nameLe :=
    List.sorted_insertionSort nameLe dir
  have hperm_s : List.Perm (List.insertionSort nameLe dir)
      ((List.range n).map fun i => (segName i, blob i)) :=
    (List.perm_insertionSort nameLe dir).trans hperm
  have hnodup : ((List.insertionSort nameLe dir).map Prod.fst).Nodup :=
    (hperm_s.map Prod.fst).nodup_iff.mpr (nodup_target_names n hn blob)
  have hsorted_s' : (List.insertionSort nameLe dir).Pairwise nameLt :=
    pairwise_nameLt_of_le_of_nodup _ hsorted_s hnodup
  have heq : List.insertionSort nameLe dir =
      (List.range n).map fun i => (segName i, blob i) :=
    List.eq_of_perm_of_sorted hperm_s hsorted_s' hsorted_t
  show (Except.ok ((List.insertionSort nameLe dir).map Prod.snd).flatten :
    Except FsErr (List β)) = Except.ok ((List.range n).map blob).flatten
  rw [heq, List.map_map]
  rfl

/-! ## Scheduler lemmas -/

theorem drainLoop_trace_le (o : Nat → Bool) (p : Nat → Nat) (limit B : Nat) :
    ∀ (fuel k : Nat) (infl comp trace : List Nat), infl.length ≤ B →
    (∀ c ∈ trace, c ≤ B) →
    ∀ c ∈ (drainLoop o p limit fuel k infl comp trace).traceOf, c ≤ B := by
  intro fuel
  induction fuel with
  | zero =>
    intro k infl comp trace _ ht
    exact ht
  | succ fuel ih =>
    intro k infl comp trace hi ht
    unfold drainLoop
    by_cases hl : infl.length < limit
    · rw [if_pos hl]
      exact ht
    · rw [if_neg hl]
      by_cases ho : o (infl.getD (p k % infl.length) 0) = true
      · rw [if_pos ho]
        apply ih
        · calc (infl.eraseIdx (p k % infl.length)).length
              ≤ infl.length := (List.eraseIdx_sublist infl _).length_le
            _ ≤ B := hi
        · intro c hc
          rcases List.mem_append.mp hc with h | h
          · exact ht c h
          · simp only [List.mem_singleton] at h
            omega
      · rw [if_neg ho]
        show ∀ c ∈ trace ++ [infl.length], c ≤ B
        intro c hc
        rcases List.mem_append.mp hc with h | h
        · exact ht c h
        · simp only [List.mem_singleton] at h
          omega

theorem drainLoop_cont_length (o : Nat → Bool) (p : Nat → Nat) (limit : Nat)
    (hlim : 1 ≤ limit) :
    ∀ (fuel k : Nat) (infl comp trace : List Nat), infl.length ≤ fuel →
    ∀ k' infl' comp' trace',
    drainLoop o p limit fuel k infl comp trace = .cont k' infl' comp' trace' →
    infl'.length < limit := by
  intro fuel
  induction fuel with
  | zero =>
    intro k infl comp trace hf k' infl' comp' trace' h
    unfold drainLoop at h
    injection h with _ hi _ _
    rw [← hi]
    omega
  | succ fuel ih =>
    intro k infl comp trace hf k' infl' comp' trace' h
    unfold drainLoop at h
    by_cases hl : infl.length < limit
    · rw [if_pos hl] at h
      injection h with _ hi _ _
      rw [← hi]
      exact hl
    · rw [if_neg hl] at h
      by_cases ho : o (infl.getD (p k % infl.length) 0) = true
      · rw [if_pos ho] at h
        have hj : p k % infl.length < infl.length :=
          Nat.mod_lt _ (by omega)
        refine ih (k + 1) _ _ _ ?_ k' infl' comp' trace' h
        rw [List.length_eraseIdx_of_lt hj]
        omega
      · rw [if_neg ho] at h
        cases h

theorem drainLoop_perm_cont (o : Nat → Bool) (p : Nat → Nat) (limit : Nat)
    (hlim : 1 ≤ limit) :
    ∀ (fuel k : Nat) (infl comp trace : List Nat) k' infl' comp' trace',
    drainLoop o p limit fuel k infl comp trace = .cont k' infl' comp' trace' →
    List.Perm (comp ++ infl) (comp' ++ infl') := by
  intro fuel
  induction fuel with
  | zero =>
    intro k infl comp trace k' infl' comp' trace' h
    unfold drainLoop at h
    injection h with _ hi hc _
    rw [hi, hc]
  | succ fuel ih =>
    intro k infl comp trace k' infl' comp' trace' h
    unfold drainLoop at h
    by_cases hl : infl.length < limit
    · rw [if_pos hl] at h
      injection h with _ hi hc _
      rw [hi, hc]
    · rw [if_neg hl] at h
      by_cases ho : o (infl.getD (p k % infl.length) 0) = true
      · rw [if_pos ho] at h
        have hj : p k % infl.length < infl.length :=
          Nat.mod_lt _ (by omega)
        have hstep : List.Perm (comp ++ infl)
            ((comp ++ [infl.getD (p k % infl.length) 0]) ++
              infl.eraseIdx (p k % infl.length)) := by
          have h1 := List.Perm.append_left comp (perm_getD_cons_eraseIdx infl _ hj)
          rw [List.append_cons] at h1
          exact h1
        exact hstep.trans (ih (k + 1) _ _ _ k' infl' comp' trace' h)
      · rw [if_neg ho] at h
        cases h

theorem drainLoop_perm_fail (o : Nat → Bool) (p : Nat → Nat) (limit : Nat)
    (hlim : 1 ≤ limit) :
    ∀ (fuel k : Nat) (infl comp trace : List Nat) x dropped comp' trace',
    drainLoop o p limit fuel k infl comp trace = .fail x dropped comp' trace' →
    List.Perm (comp ++ infl) (comp' ++ x :: dropped) := by
  intro fuel
  induction fuel with
  | zero =>
    intro k infl comp trace x dropped comp' trace' h
    unfold drainLoop at h
    cases h
  | succ fuel ih =>
    intro k infl comp trace x dropped comp' trace' h
    unfold drainLoop at h
    by_cases hl : infl.length < limit
    · rw [if_pos hl] at h
      cases h
    · rw [if_neg hl] at h
      by_cases ho : o (infl.getD (p k % infl.length) 0) = true
      · rw [if_pos ho] at h
        have hj : p k % infl.length < infl.length :=
          Nat.mod_lt _ (by omega)
        have hstep : List.Perm (comp ++ infl)
            ((comp ++ [infl.getD (p k % infl.length) 0]) ++
              infl.eraseIdx (p k % infl.length)) := by
          have h1 := List.Perm.append_left comp (perm_getD_cons_eraseIdx infl _ hj)
          rw [List.append_cons] at h1
          exact h1
        exact hstep.trans (ih (k + 1) _ _ _ x dropped comp' trace' h)
      · rw [if_neg ho] at h
        have hj : p k % infl.length < infl.length :=
          Nat.mod_lt _ (by omega)
        injection h with hx hd hc _
        rw [← hx, ← hd, ← hc]
        exact List.Perm.append_left comp (perm_getD_cons_eraseIdx infl _ hj)

theorem drainLoop_isCont (o : Nat → Bool) (p : Nat → Nat) (limit : Nat)
    (hall : ∀ x, o x = true) :
    ∀ (fuel k : Nat) (infl comp trace : List Nat),
    (drainLoop o p limit fuel k infl comp trace).isCont = true := by
  intro fuel
  induction fuel with
  | zero =>
    intro k infl comp trace
    rfl
  | succ fuel ih =>
    intro k infl comp trace
    unfold drainLoop
    by_cases hl : infl.length < limit
    · rw [if_pos hl]
      rfl
    · rw [if_neg hl, if_pos (hall _)]
      exact ih (k + 1) _ _ _

theorem schedule_def (o : Nat → Bool) (p : Nat → Nat) (n : Nat) :
    schedule o p n = schedGo o p (List.range n) 0 [] [] [] := rfl

theorem schedGo_trace_le (o : Nat → Bool) (p : Nat → Nat) :
    ∀ (segs : List Nat) (k : Nat) (infl comp trace : List Nat),
    infl.length < concurrencyLimit → (∀ c ∈ trace, c ≤ concurrencyLimit) →
    ∀ c ∈ (schedGo o p segs k infl comp trace).trace, c ≤ concurrencyLimit := by
  intro segs
  induction segs with
  | nil =>
    intro k infl comp trace hi ht
    have htr := drainLoop_trace_le o p 1 concurrencyLimit infl.length k infl
      comp trace (le_of_lt hi) ht
    simp only [schedGo]
    cases hd : drainLoop o p 1 infl.length k infl comp trace with
    | cont k' infl' comp' trace' =>
      rw [hd] at htr
      intro c hc
      exact htr c hc
    | fail x dropped comp' trace' =>
      rw [hd] at htr
      intro c hc
      exact htr c hc
  | cons i rest ih =>
    intro k infl comp trace hi ht
    have hlen1 : (infl ++ [i]).length ≤ concurrencyLimit := by
      rw [List.length_append]
      simp only [List.length_singleton]
      omega
    have ht' : ∀ c ∈ trace ++ [infl.length + 1], c ≤ concurrencyLimit := by
      intro c hc
      rcases List.mem_append.mp hc with h | h
      · exact ht c h
      · simp only [List.mem_singleton] at h
        omega
    have htr := drainLoop_trace_le o p concurrencyLimit concurrencyLimit
      (infl.length + 1) k (infl ++ [i]) comp (trace ++ [infl.length + 1])
      hlen1 ht'
    simp only [schedGo]
    cases hd : drainLoop o p concurrencyLimit (infl.length + 1) k (infl ++ [i])
        comp (trace ++ [infl.length + 1]) with
    | cont k' infl' comp' trace' =>
      rw [hd] at htr
      apply ih k' infl' comp' trace'
      · refine drainLoop_cont_length o p concurrencyLimit (by decide)
          (infl.length + 1) k (infl ++ [i]) comp (trace ++ [infl.length + 1])
          ?_ k' infl' comp' trace' hd
        rw [List.length_append]
        simp
      · exact htr
    | fail x dropped comp' trace' =>
      rw [hd] at htr
      intro c hc
      exact htr c hc

theorem schedGo_perm_none (o : Nat → Bool) (p : Nat → Nat) :
    ∀ (segs : List Nat) (k : Nat) (infl comp trace : List Nat),
    (schedGo o p segs k infl comp trace).err = none →
    List.Perm (comp ++ infl ++ segs)
      (schedGo o p segs k infl comp trace).completed := by
  intro segs
  induction segs with
  | nil =>
    intro k infl comp trace herr
    simp only [schedGo] at herr ⊢
    cases hd : drainLoop o p 1 infl.length k infl comp trace with
    | cont k' infl' comp' trace' =>
      rw [hd] at herr
      have hperm := drainLoop_perm_cont o p 1 (by decide) infl.length k infl
        comp trace k' infl' comp' trace' hd
      have hlen := drainLoop_cont_length o p 1 (by decide) infl.length k infl
        comp trace (le_refl _) k' infl' comp' trace' hd
      have hnil : infl' = [] := List.length_eq_zero.mp (by omega)
      subst hnil
      show List.Perm (comp ++ infl ++ []) comp'
      rw [List.append_nil]
      simpa using hperm
    | fail x dropped comp' trace' =>
      exfalso
      rw [hd] at herr
      simp at herr
  | cons i rest ih =>
    intro k infl comp trace herr
    simp only [schedGo] at herr ⊢
    cases hd : drainLoop o p concurrencyLimit (infl.length + 1) k (infl ++ [i])
        comp (trace ++ [infl.length + 1]) with
    | cont k' infl' comp' trace' =>
      rw [hd] at herr
      have hperm := drainLoop_perm_cont o p concurrencyLimit (by decide)
        (infl.length + 1) k (infl ++ [i]) comp (trace ++ [infl.length + 1])
        k' infl' comp' trace' hd
      have hperm2 : List.Perm (comp ++ infl ++ (i :: rest))
          ((comp' ++ infl') ++ rest) := by
        have h1 : comp ++ infl ++ (i :: rest) = (comp ++ (infl ++ [i])) ++ rest := by
          simp [List.append_assoc]
        rw [h1]
        exact hperm.append_right rest
      exact hperm2.trans (ih k' infl' comp' trace' herr)
    | fail x dropped comp' trace' =>
      exfalso
      rw [hd] at herr
      simp at herr

theorem schedGo_perm_some (o : Nat → Bool) (p : Nat → Nat) :
    ∀ (segs : List Nat) (k : Nat) (infl comp trace : List Nat) (x : Nat),
    (schedGo o p segs k infl comp trace).err = some x →
    List.Perm (comp ++ infl ++ segs)
      ((schedGo o p segs k infl comp trace).completed ++
        x :: ((schedGo o p segs k infl comp trace).dropped ++
          (schedGo o p segs k infl comp trace).unsubmitted)) := by
  intro segs
  induction segs with
  | nil =>
    intro k infl comp trace x herr
    simp only [schedGo] at herr ⊢
    cases hd : drainLoop o p 1 infl.length k infl comp trace with
    | cont k' infl' comp' trace' =>
      exfalso
      rw [hd] at herr
      simp at herr
    | fail x' dropped comp' trace' =>
      rw [hd] at herr
      have hx : x' = x := by simpa using herr
      subst hx
      have hperm := drainLoop_perm_fail o p 1 (by decide) infl.length k infl
        comp trace x' dropped comp' trace' hd
      show List.Perm (comp ++ infl ++ []) (comp' ++ x' :: (dropped ++ []))
      rw [List.append_nil, List.append_nil]
      exact hperm
  | cons i rest ih =>
    intro k infl comp trace x herr
    simp only [schedGo] at herr ⊢
    cases hd : drainLoop o p concurrencyLimit (infl.length + 1) k (infl ++ [i])
        comp (trace ++ [infl.length + 1]) with
    | cont k' infl' comp' trace' =>
      rw [hd] at herr
      have hperm := drainLoop_perm_cont o p concurrencyLimit (by decide)
        (infl.length + 1) k (infl ++ [i]) comp (trace ++ [infl.length + 1])
        k' infl' comp' trace' hd
      have hperm2 : List.Perm (comp ++ infl ++ (i :: rest))
          ((comp' ++ infl') ++ rest) := by
        have h1 : comp ++ infl ++ (i :: rest) = (comp ++ (infl ++ [i])) ++ rest := by
          simp [List.append_assoc]
        rw [h1]
        exact hperm.append_right rest
      exact hperm2.trans (ih k' infl' comp' trace' x herr)
    | fail x' dropped comp' trace' =>
      rw [hd] at herr
      have hx : x' = x := by simpa using herr
      subst hx
      have hperm := drainLoop_perm_fail o p concurrencyLimit (by decide)
        (infl.length + 1) k (infl ++ [i]) comp (trace ++ [infl.length + 1])
        x' dropped comp' trace' hd
      show List.Perm (comp ++ infl ++ (i :: rest))
        (comp' ++ x' :: (dropped ++ rest))
      have h1 : comp ++ infl ++ (i :: rest) = (comp ++ (infl ++ [i])) ++ rest := by
        simp [List.append_assoc]
      have h2 : (comp' ++ x' :: dropped) ++ rest =
          comp' ++ x' :: (dropped ++ rest) := by
        simp [List.append_assoc]
      rw [h1, ← h2]
      exact hperm.append_right rest

theorem schedGo_err_none_of_all_ok (o : Nat → Bool) (p : Nat → Nat)
    (hall : ∀ x, o x = true) :
    ∀ (segs : List Nat) (k : Nat) (infl comp trace : List Nat),
    (schedGo o p segs k infl comp trace).err = none := by
  intro segs
  induction segs with
  | nil =>
    intro k infl comp trace
    have hc := drainLoop_isCont o p 1 hall infl.length k infl comp trace
    simp only [schedGo]
    cases hd : drainLoop o p 1 infl.length k infl comp trace with
    | cont k' infl' comp' trace' => rfl
    | fail x dropped comp' trace' =>
      rw [hd] at hc
      simp [DrainRes.isCont] at hc
  | cons i rest ih =>
    intro k infl comp trace
    have hc := drainLoop_isCont o p concurrencyLimit hall (infl.length + 1)
      k (infl ++ [i]) comp (trace ++ [infl.length + 1])
    simp only [schedGo]
    cases hd : drainLoop o p concurrencyLimit (infl.length + 1) k (infl ++ [i])
        comp (trace ++ [infl.length + 1]) with
    | cont k' infl' comp' trace' => exact ih k' infl' comp' trace'
    | fail x dropped comp' trace' =>
      rw [hd] at hc
      simp [DrainRes.isCont] at hc

/-- Scheduler invariants restated at the `schedule` entry point. -/
theorem schedule_trace_le (o : Nat → Bool) (p : Nat → Nat) (n : Nat) :
    ∀ c ∈ (schedule o p n).trace, c ≤ concurrencyLimit := by
  rw [schedule_def]
  exact schedGo_trace_le o p (List.range n) 0 [] [] [] (by decide)
    (by intro x hx; cases hx)

theorem schedule_perm_none (o : Nat → Bool) (p : Nat → Nat) (n : Nat)
    (h : (schedule o p n).err = none) :
    List.Perm (List.range n) (schedule o p n).completed := by
  rw [schedule_def] at h ⊢
  have h2 := schedGo_perm_none o p (List.range n) 0 [] [] [] h
  simp only [List.nil_append] at h2
  exact h2

theorem schedule_perm_some (o : Nat → Bool) (p : Nat → Nat) (n x : Nat)
    (h : (schedule o p n).err = some x) :
    List.Perm (List.range n)
      ((schedule o p n).completed ++ x :: ((schedule o p n).dropped ++
        (schedule o p n).unsubmitted)) := by
  rw [schedule_def] at h ⊢
  have h2 := schedGo_perm_some o p (List.range n) 0 [] [] [] x h
  simp only [List.nil_append] at h2
  exact h2

theorem schedule_err_none_of_all_ok (o : Nat → Bool) (p : Nat → Nat)
    (hall : ∀ x, o x = true) (n : Nat) : (schedule o p n).err = none := by
  rw [schedule_def]
  exact schedGo_err_none_of_all_ok o p hall (List.range n) 0 [] [] []

/-! ## Retrying-fetcher lemmas -/

theorem retryStep_result (a : Nat) (t : FetchTrace β) :
    (retryStep a t).result = t.result := rfl

theorem retryStep_attempts (a : Nat) (t : FetchTrace β) :
    (retryStep a t).attempts = t.attempts := rfl

theorem segRetryStep_result (t : FetchTrace β) :
    (segRetryStep t).result = t.result := rfl

theorem segRetryStep_attempts (t : FetchTrace β) :
    (segRetryStep t).attempts = t.attempts := rfl

theorem dwrGo_attempts_le (o : Nat → ManifestResp) (m : Nat) :
    ∀ (fuel a : Nat) (le : Option FetchErr),
    (dwrGo o m fuel a le).attempts ≤ a + fuel := by
  intro fuel
  induction fuel with
  | zero =>
    intro a le
    simp [dwrGo]
  | succ fuel ih =>
    intro a le
    unfold dwrGo
    cases o a with
    | tErr e =>
      dsimp only
      by_cases h : a < m
      · rw [if_pos h, retryStep_attempts]
        have := ih (a + 1) (some e)
        omega
      · rw [if_neg h]
        show a + 1 ≤ a + (fuel + 1)
        omega
    | resp s b =>
      dsimp only
      by_cases hs : isSuccessStatus s = true
      · rw [if_pos hs]
        show a + 1 ≤ a + (fuel + 1)
        omega
      · rw [if_neg hs]
        by_cases h : a < m
        · rw [if_pos h, retryStep_attempts]
          have := ih (a + 1) (some (.httpStatus s))
          omega
        · rw [if_neg h]
          show a + 1 ≤ a + (fuel + 1)
          omega

theorem dsGo_attempts_le (o : Nat → SegmentResp) (m : Nat) :
    ∀ (fuel a : Nat) (le : Option FetchErr),
    (dsGo o m fuel a le).attempts ≤ a + fuel := by
  intro fuel
  induction fuel with
  | zero =>
    intro a le
    simp [dsGo]
  | succ fuel ih =>
    intro a le
    unfold dsGo
    cases o a with
    | tErr e =>
      dsimp only
      by_cases h : a < m
      · rw [if_pos h, segRetryStep_attempts]
        have := ih (a + 1) (some e)
        omega
      · rw [if_neg h]
        show a + 1 ≤ a + (fuel + 1)
        omega
    | resp s b w =>
      dsimp only
      by_cases hs : isSuccessStatus s = true
      · rw [if_pos hs]
        cases b with
        | error e =>
          show a + 1 ≤ a + (fuel + 1)
          omega
        | ok bb =>
          cases w with
          | error e =>
            show a + 1 ≤ a + (fuel + 1)
            omega
          | ok u =>
            show a + 1 ≤ a + (fuel + 1)
            omega
      · rw [if_neg hs]
        by_cases h : a < m
        · rw [if_pos h, segRetryStep_attempts]
          have := ih (a + 1) (some (.httpStatus s))
          omega
        · rw [if_neg h]
          show a + 1 ≤ a + (fuel + 1)
          omega

theorem dwrGo_all_fail (o : Nat → ManifestResp) (m : Nat)
    (errs : Nat → FetchErr) :
    ∀ (fuel a : Nat) (le : Option FetchErr), fuel = m + 1 - a → a ≤ m →
    (∀ j, a ≤ j → j ≤ m → mFail (o j) = some (errs j)) →
    (dwrGo o m fuel a le).result = .error (errs m) := by
  intro fuel
  induction fuel with
  | zero =>
    intro a le hf ha _
    omega
  | succ fuel ih =>
    intro a le hf ha hfail
    have hj := hfail a (le_refl a) ha
    unfold dwrGo
    cases ho : o a with
    | tErr e =>
      dsimp only
      rw [ho] at hj
      simp only [mFail, Option.some.injEq] at hj
      by_cases h : a < m
      · rw [if_pos h, retryStep_result]
        exact ih (a + 1) (some e) (by omega) (by omega)
          (fun j h1 h2 => hfail j (by omega) h2)
      · rw [if_neg h]
        have ham : a = m := by omega
        show Except.error e = Except.error (errs m)
        rw [hj, ham]
    | resp s b =>
      dsimp only
      rw [ho] at hj
      simp only [mFail] at hj
      have hs : ¬ isSuccessStatus s = true := by
        intro hc
        rw [if_pos hc] at hj
        cases hj
      rw [if_neg hs] at hj
      have he : FetchErr.httpStatus s = errs a := by
        injection hj
      rw [if_neg hs]
      by_cases h : a < m
      · rw [if_pos h, retryStep_result]
        exact ih (a + 1) (some (.httpStatus s)) (by omega) (by omega)
          (fun j h1 h2 => hfail j (by omega) h2)
      · rw [if_neg h]
        have ham : a = m := by omega
        show Except.error (FetchErr.httpStatus s) = Except.error (errs m)
        rw [he, ham]

theorem dsGo_all_fail (o : Nat → SegmentResp) (m : Nat)
    (errs : Nat → FetchErr) :
    ∀ (fuel a : Nat) (le : Option FetchErr), fuel = m + 1 - a → a ≤ m →
    (∀ j, a ≤ j → j ≤ m → sFail (o j) = some (errs j)) →
    (dsGo o m fuel a le).result = .error (errs m) := by
  intro fuel
  induction fuel with
  | zero =>
    intro a le hf ha _
    omega
  | succ fuel ih =>
    intro a le hf ha hfail
    have hj := hfail a (le_refl a) ha
    unfold dsGo
    cases ho : o a with
    | tErr e =>
      dsimp only
      rw [ho] at hj
      simp only [sFail, Option.some.injEq] at hj
      by_cases h : a < m
      · rw [if_pos h, segRetryStep_result]
        exact ih (a + 1) (some e) (by omega) (by omega)
          (fun j h1 h2 => hfail j (by omega) h2)
      · rw [if_neg h]
        have ham : a = m := by omega
        show Except.error e = Except.error (errs m)
        rw [hj, ham]
    | resp s b w =>
      dsimp only
      rw [ho] at hj
      simp only [sFail] at hj
      have hs : ¬ isSuccessStatus s = true := by
        intro hc
        rw [if_pos hc] at hj
        cases hj
      rw [if_neg hs] at hj
      have he : FetchErr.httpStatus s = errs a := by
        injection hj
      rw [if_neg hs]
      by_cases h : a < m
      · rw [if_pos h, segRetryStep_result]
        exact ih (a + 1) (some (.httpStatus s)) (by omega) (by omega)
          (fun j h1 h2 => hfail j (by omega) h2)
      · rw [if_neg h]
        have ham : a = m := by omega
        show Except.error (FetchErr.httpStatus s) = Except.error (errs m)
        rw [he, ham]

theorem dwrGo_success_at (o : Nat → ManifestResp) (m kk s : Nat)
    (body : Except FetchErr (List Char)) (hk : kk ≤ m)
    (hone : o kk = .resp s body) (hs : isSuccessStatus s = true)
    (hprev : ∀ j, j < kk → mFail (o j) ≠ none) :
    ∀ (fuel a : Nat) (le : Option FetchErr), fuel = m + 1 - a → a ≤ kk →
    (dwrGo o m fuel a le).result = body ∧
      (dwrGo o m fuel a le).attempts = kk + 1 := by
  intro fuel
  induction fuel with
  | zero =>
    intro a le hf ha
    omega
  | succ fuel ih =>
    intro a le hf ha
    by_cases hak : a = kk
    · subst hak
      unfold dwrGo
      rw [hone]
      dsimp only
      rw [if_pos hs]
      exact ⟨rfl, rfl⟩
    · have halt : a < kk := by omega
      have hfa := hprev a halt
      unfold dwrGo
      cases ho : o a with
      | tErr e =>
        dsimp only
        have ham : a < m := by omega
        rw [if_pos ham, retryStep_result, retryStep_attempts]
        exact ih (a + 1) (some e) (by omega) (by omega)
      | resp s' b' =>
        dsimp only
        have hs' : ¬ isSuccessStatus s' = true := by
          intro hc
          rw [ho] at hfa
          simp [mFail, hc] at hfa
        rw [if_neg hs']
        have ham : a < m := by omega
        rw [if_pos ham, retryStep_result, retryStep_attempts]
        exact ih (a + 1) (some (.httpStatus s')) (by omega) (by omega)

theorem dsGo_success_at (o : Nat → SegmentResp) (m kk s : Nat)
    (bytes : Except FetchErr (List Nat)) (write : Except FetchErr Unit)
    (hk : kk ≤ m) (hone : o kk = .resp s bytes write)
    (hs : isSuccessStatus s = true)
    (hprev : ∀ j, j < kk → sFail (o j) ≠ none) :
    ∀ (fuel a : Nat) (le : Option FetchErr), fuel = m + 1 - a → a ≤ kk →
    (dsGo o m fuel a le).result = segAttemptResult bytes write ∧
      (dsGo o m fuel a le).attempts = kk + 1 := by
  intro fuel
  induction fuel with
  | zero =>
    intro a le hf ha
    omega
  | succ fuel ih =>
    intro a le hf ha
    by_cases hak : a = kk
    · subst hak
      unfold dsGo
      rw [hone]
      dsimp only
      rw [if_pos hs]
      cases bytes with
      | error e => exact ⟨rfl, rfl⟩
      | ok b =>
        cases write with
        | error e => exact ⟨rfl, rfl⟩
        | ok u => exact ⟨rfl, rfl⟩
    · have halt : a < kk := by omega
      have hfa := hprev a halt
      unfold dsGo
      cases ho : o a with
      | tErr e =>
        dsimp only
        have ham : a < m := by omega
        rw [if_pos ham, segRetryStep_result, segRetryStep_attempts]
        exact ih (a + 1) (some e) (by omega) (by omega)
      | resp s' b' w' =>
        dsimp only
        have hs' : ¬ isSuccessStatus s' = true := by
          intro hc
          rw [ho] at hfa
          simp [sFail, hc] at hfa
        rw [if_neg hs']
        have ham : a < m := by omega
        rw [if_pos ham, segRetryStep_result, segRetryStep_attempts]
        exact ih (a + 1) (some (.httpStatus s')) (by omega) (by omega)

/-! ## Manifest-resolution lemmas and claims C6, C7 -/

theorem httpLines_ne_nil_of_contains (c : List Char)
    (h : contains_direct_segments c = true) : httpLines c ≠ [] := by
  unfold contains_direct_segments at h
  rw [List.any_eq_true] at h
  obtain ⟨l, hl, hdl⟩ := h
  unfold isDirectSegmentLine at hdl
  rw [Bool.and_eq_true] at hdl
  intro hnil
  have hmem : l ∈ httpLines c := by
    unfold httpLines
    rw [List.mem_filter]
    exact ⟨hl, hdl.1⟩
  rw [hnil] at hmem
  cases hmem

/-- C6 (amended): when the root manifest contains a direct-segment line
(scheme prefix and a `.ts`/`.bin` marker), resolution succeeds and the work
list is every line beginning with the URL scheme marker — whether or not
that line carries a segment-file marker — in original file order, indices
assigned by position. -/
theorem C6_direct_segments_work_list
    (fetch : List Char → Except FetchErr (List Char)) (c : List Char)
    (h : contains_direct_segments c = true) :
    resolveSegments fetch c = .ok (httpLines c) := by
  have hne := httpLines_ne_nil_of_contains c h
  unfold resolveSegments
  rw [if_pos h]
  dsimp only
  cases hl : httpLines c with
  | nil => exact absurd hl hne
  | cons a t => rfl

/-- C6 witness: a one-line manifest whose single line is a direct segment. -/
theorem C6_direct_segments_work_list_witness :
    resolveSegments (fun _ => .error .unknown) "http://a/x.ts".data =
      .ok (httpLines "http://a/x.ts".data) :=
  C6_direct_segments_work_list (fun _ => .error .unknown)
    "http://a/x.ts".data (by decide)

/-- C6 counterexample: a root manifest with one direct-segment line and one
scheme-prefixed line with no segment marker.  The claim says the work list
is exactly the matching (direct-segment) lines; the code returns every
scheme-prefixed line, so the second line is included too. -/
theorem C6_counterexample :
    contains_direct_segments "http://a/x.ts\nhttp://b/y".data = true ∧
    resolveSegments (fun _ => .error .unknown)
      "http://a/x.ts\nhttp://b/y".data =
      .ok ["http://a/x.ts".data, "http://b/y".data] ∧
    (rustLines "http://a/x.ts\nhttp://b/y".data).filter isDirectSegmentLine =
      ["http://a/x.ts".data] ∧
    (["http://a/x.ts".data, "http://b/y".data] :
      List (List Char)) ≠ ["http://a/x.ts".data] :=
  ⟨by decide, by decide, by decide, by decide⟩

/-- C7: with no direct-segment line, resolution follows the last
scheme-prefixed line of the root manifest (scanning from the end), fetches
it, and uses every scheme-prefixed line of the fetched content as the work
list (failing with the no-segments error when that list is empty); with no
scheme-prefixed line in the root at all it fails with the
no-secondary-playlist error. -/
theorem C7_secondary_resolution :
    (∀ (fetch : List Char → Except FetchErr (List Char)) (root u s : List Char),
      contains_direct_segments root = false →
      (rustLines root).reverse.find? isHttpLine = some u →
      fetch u = .ok s → httpLines s ≠ [] →
      resolveSegments fetch root = .ok (httpLines s)) ∧
    (∀ (fetch : List Char → Except FetchErr (List Char)) (root u s : List Char),
      contains_direct_segments root = false →
      (rustLines root).reverse.find? isHttpLine = some u →
      fetch u = .ok s → httpLines s = [] →
      resolveSegments fetch root = .error .noSegments) ∧
    (∀ (fetch : List Char → Except FetchErr (List Char)) (root : List Char),
      contains_direct_segments root = false →
      (rustLines root).reverse.find? isHttpLine = none →
      resolveSegments fetch root = .error .noSecondaryPlaylist) := by
  refine ⟨?_, ?_, ?_⟩
  · intro fetch root u s hdirect hfind hfetch hne
    unfold resolveSegments
    rw [if_neg (by simp [hdirect]), hfind]
    dsimp only
    rw [hfetch]
    dsimp only
    cases hl : httpLines s with
    | nil => exact absurd hl hne
    | cons a t => rfl
  · intro fetch root u s hdirect hfind hfetch hemp
    unfold resolveSegments
    rw [if_neg (by simp [hdirect]), hfind]
    dsimp only
    rw [hfetch]
    dsimp only
    rw [hemp]
    rfl
  · intro fetch root hdirect hfind
    unfold resolveSegments
    rw [if_neg (by simp [hdirect]), hfind]

/-- C7 witness: a master playlist pointing at a secondary playlist with two
segment lines; a master playlist with no scheme-prefixed line at all; and a
secondary playlist with no scheme-prefixed content. -/
theorem C7_secondary_resolution_witness :
    resolveSegments (fun _ => .ok "http://s/0.ts\nhttp://s/1.ts".data)
      "#EXTM3U\nhttp://sec".data =
      .ok (httpLines "http://s/0.ts\nhttp://s/1.ts".data) ∧
    resolveSegments (fun _ => .ok "#nothing".data) "#EXTM3U\nhttp://sec".data =
      .error .noSegments ∧
    resolveSegments (fun _ => .ok []) "#comment only".data =
      .error .noSecondaryPlaylist :=
  ⟨C7_secondary_resolution.1 (fun _ => .ok "http://s/0.ts\nhttp://s/1.ts".data)
      "#EXTM3U\nhttp://sec".data "http://sec".data
      "http://s/0.ts\nhttp://s/1.ts".data (by decide) (by decide) rfl (by decide),
    C7_secondary_resolution.2.1 (fun _ => .ok "#nothing".data)
      "#EXTM3U\nhttp://sec".data "http://sec".data "#nothing".data
      (by decide) (by decide) rfl (by decide),
    C7_secondary_resolution.2.2 (fun _ => .ok []) "#comment only".data
      (by decide) (by decide)⟩

/-! ## Claims C2 and C3: the bounded scheduler -/

/-- C2: for every work list, outcome oracle and completion order, every
in-flight count sampled during scheduling (after each submission and at
each await) is at most the concurrency limit of 10. -/
theorem C2_concurrency_bound (o : Nat → Bool) (p : Nat → Nat) (n : Nat) :
    (schedule o p n).trace.all (fun c => decide (c ≤ concurrencyLimit)) = true := by
  rw [List.all_eq_true]
  intro c hc
  rw [decide_eq_true_eq]
  exact schedGo_trace_le o p (List.range n) 0 [] [] [] (by decide)
    (by intro x hx; cases hx) c hc

/-- C3 counterexample: with 11 segments, if the first await returns task 0
failing, the scheduler returns the error at once: nine tasks are still in
flight and are dropped without being awaited (`dropped ≠ []`, none of them
completed), and segment 10 is never submitted — contradicting the claim
that every in-flight task is run to completion before the error returns. -/
theorem C3_counterexample :
    (schedule failOnZero (fun _ => 0) 11).err = some 0 ∧
    (schedule failOnZero (fun _ => 0) 11).dropped =
      [1, 2, 3, 4, 5, 6, 7, 8, 9] ∧
    (schedule failOnZero (fun _ => 0) 11).dropped ≠ [] ∧
    (schedule failOnZero (fun _ => 0) 11).completed = [] ∧
    (schedule failOnZero (fun _ => 0) 11).unsubmitted = [10] :=
  ⟨by decide, by decide, by decide, by decide, by decide⟩

/-- C3 (amended): on the first task failure the scheduler stops submitting
new work and returns that error immediately.  The completed tasks, the
failed task, the in-flight tasks dropped at the early return, and the
never-submitted segments partition the work list: no task outside the
submitted prefix ever starts and nothing is leaked (futures live only
inside the scheduler's own set, so dropping them ends them) — but the
dropped in-flight tasks are cancelled, not awaited to completion. -/
theorem C3_fail_fast_partition (o : Nat → Bool) (p : Nat → Nat) (n x : Nat)
    (herr : (schedule o p n).err = some x) :
    List.Perm (List.range n)
      ((schedule o p n).completed ++ x :: ((schedule o p n).dropped ++
        (schedule o p n).unsubmitted)) :=
  schedule_perm_some o p n x herr

theorem C3_fail_fast_partition_witness :
    List.Perm (List.range 11)
      ((schedule failOnZero (fun _ => 0) 11).completed ++ 0 ::
        ((schedule failOnZero (fun _ => 0) 11).dropped ++
          (schedule failOnZero (fun _ => 0) 11).unsubmitted)) :=
  C3_fail_fast_partition failOnZero (fun _ => 0) 11 0 (by decide)

/-! ## Claims C4, C5, C10: the retrying fetcher -/

/-- C4 (code bug evidence): for a manifest fetch whose four attempts all
fail, the code *announces* delays of `2^attempt` seconds (`[1, 2, 4]`, from
the `Retry ... in {delay}s` message of main.rs 140-141) but actually sleeps
a fixed 100 ms before every retry (main.rs 142); the same fixed 100 ms is
slept before each of the 12 segment retries, where the computed `delay` is
entirely dead code (main.rs 164-165).  In particular there is no time unit
`u` in which the slept delays follow the claimed `2^attempt` pattern. -/
theorem C4_backoff_divergence :
    (download_with_retry allTransportFail mainPlaylistMaxRetries).announcedDelays
        = [1, 2, 4] ∧
    (download_with_retry allTransportFail mainPlaylistMaxRetries).sleptMs
        = [100, 100, 100] ∧
    (download_segment allSegTransportFail segmentMaxRetries).sleptMs
        = List.replicate 12 100 ∧
    ¬ ∃ u, 0 < u ∧
      (download_with_retry allTransportFail mainPlaylistMaxRetries).sleptMs =
        [u * 2 ^ 0, u * 2 ^ 1, u * 2 ^ 2] := by
  refine ⟨by decide, by decide, by decide, ?_⟩
  rintro ⟨u, hu, h⟩
  rw [show (download_with_retry allTransportFail mainPlaylistMaxRetries).sleptMs
      = [100, 100, 100] from by decide] at h
  simp only [List.cons.injEq, and_true] at h
  omega

/-- C5 counterexample: the first attempt returns a success (200) status,
yet the fetch does not succeed — the body read fails and that error is
surfaced, refuting "if any attempt up to the last one returns a success
status the fetch succeeds with no error surfaced". -/
theorem C5_counterexample :
    isSuccessStatus 200 = true ∧
    (download_with_retry bodyFailOracle mainPlaylistMaxRetries).result =
      .error (.bodyRead 0) ∧
    (download_with_retry bodyFailOracle mainPlaylistMaxRetries).attempts = 1 :=
  ⟨by decide, by decide, by decide⟩

/-- C5 (amended): the manifest and segment retry ceilings at the call sites
are 3 and 12; every fetch makes at most `max_retries + 1` attempts; if every
attempt fails retryably (transport error or non-success status) the fetch
returns the last attempt's error; and if some attempt returns a success
status after only retryable failures *and its body read (and, for segments,
blob write) succeeds*, the fetch succeeds with no error surfaced. -/
theorem C5_retry_accounting :
    (mainPlaylistMaxRetries = 3 ∧ segmentMaxRetries = 12) ∧
    (∀ (o : Nat → ManifestResp) (m : Nat),
      (download_with_retry o m).attempts ≤ m + 1) ∧
    (∀ (o : Nat → SegmentResp) (m : Nat),
      (download_segment o m).attempts ≤ m + 1) ∧
    (∀ (o : Nat → ManifestResp) (m : Nat) (errs : Nat → FetchErr),
      (∀ j, j ≤ m → mFail (o j) = some (errs j)) →
      (download_with_retry o m).result = .error (errs m)) ∧
    (∀ (o : Nat → SegmentResp) (m : Nat) (errs : Nat → FetchErr),
      (∀ j, j ≤ m → sFail (o j) = some (errs j)) →
      (download_segment o m).result = .error (errs m)) ∧
    (∀ (o : Nat → ManifestResp) (m k s : Nat) (body : List Char),
      k ≤ m → (∀ j, j < k → mFail (o j) ≠ none) →
      o k = .resp s (.ok body) → isSuccessStatus s = true →
      (download_with_retry o m).result = .ok body) ∧
    (∀ (o : Nat → SegmentResp) (m k s : Nat) (bts : List Nat),
      k ≤ m → (∀ j, j < k → sFail (o j) ≠ none) →
      o k = .resp s (.ok bts) (.ok ()) → isSuccessStatus s = true →
      (download_segment o m).result = .ok ()) := by
  refine ⟨⟨rfl, rfl⟩, ?_, ?_, ?_, ?_, ?_, ?_⟩
  · intro o m
    have := dwrGo_attempts_le o m (m + 1) 0 none
    simpa using this
  · intro o m
    have := dsGo_attempts_le o m (m + 1) 0 none
    simpa using this
  · intro o m errs hfail
    exact dwrGo_all_fail o m errs (m + 1) 0 none (by omega) (by omega)
      (fun j _ h2 => hfail j h2)
  · intro o m errs hfail
    exact dsGo_all_fail o m errs (m + 1) 0 none (by omega) (by omega)
      (fun j _ h2 => hfail j h2)
  · intro o m k s body hk hprev hone hs
    exact (dwrGo_success_at o m k s (.ok body) hk hone hs hprev (m + 1) 0 none
      (by omega) (by omega)).1
  · intro o m k s bts hk hprev hone hs
    exact (dsGo_success_at o m k s (.ok bts) (.ok ()) hk hone hs hprev (m + 1)
      0 none (by omega) (by omega)).1

theorem C5_retry_accounting_witness :
    (download_with_retry allTransportFail 3).attempts ≤ 4 ∧
    (download_with_retry allTransportFail 3).result = .error (.transport 3) ∧
    (download_segment allSegTransportFail 12).result = .error (.transport 12) ∧
    (download_with_retry okAfterOneFail 3).result = .ok ['o', 'k'] ∧
    (download_segment segOkAfterTwoFails 12).result = .ok () :=
  ⟨C5_retry_accounting.2.1 allTransportFail 3,
    C5_retry_accounting.2.2.2.1 allTransportFail 3
      (fun j => .transport j) (by decide),
    C5_retry_accounting.2.2.2.2.1 allSegTransportFail 12
      (fun j => .transport j) (by decide),
    C5_retry_accounting.2.2.2.2.2.1 okAfterOneFail 3 1 200 ['o', 'k']
      (by omega) (by decide) rfl (by decide),
    C5_retry_accounting.2.2.2.2.2.2 segOkAfterTwoFails 12 2 200 [1, 2]
      (by omega) (by decide) rfl (by decide)⟩

/-- C10: an attempt that reaches a success (2xx) status but whose body read
fails (or, for segments, whose body read or blob write fails) causes the
fetch to return that error immediately — the attempt count stops at that
attempt and no retry is consumed; only transport errors and non-success
statuses are retried. -/
theorem C10_post_status_errors_not_retried :
    (∀ (o : Nat → ManifestResp) (m k s : Nat) (e : FetchErr),
      k ≤ m → (∀ j, j < k → mFail (o j) ≠ none) →
      o k = .resp s (.error e) → isSuccessStatus s = true →
      (download_with_retry o m).result = .error e ∧
        (download_with_retry o m).attempts = k + 1) ∧
    (∀ (o : Nat → SegmentResp) (m k s : Nat) (e : FetchErr)
      (w : Except FetchErr Unit),
      k ≤ m → (∀ j, j < k → sFail (o j) ≠ none) →
      o k = .resp s (.error e) w → isSuccessStatus s = true →
      (download_segment o m).result = .error e ∧
        (download_segment o m).attempts = k + 1) ∧
    (∀ (o : Nat → SegmentResp) (m k s : Nat) (e : FetchErr) (bts : List Nat),
      k ≤ m → (∀ j, j < k → sFail (o j) ≠ none) →
      o k = .resp s (.ok bts) (.error e) → isSuccessStatus s = true →
      (download_segment o m).result = .error e ∧
        (download_segment o m).attempts = k + 1) := by
  refine ⟨?_, ?_, ?_⟩
  · intro o m k s e hk hprev hone hs
    exact dwrGo_success_at o m k s (.error e) hk hone hs hprev (m + 1) 0 none
      (by omega) (by omega)
  · intro o m k s e w hk hprev hone hs
    have h := dsGo_success_at o m k s (.error e) w hk hone hs hprev (m + 1) 0
      none (by omega) (by omega)
    exact ⟨h.1, h.2⟩
  · intro o m k s e bts hk hprev hone hs
    have h := dsGo_success_at o m k s (.ok bts) (.error e) hk hone hs hprev
      (m + 1) 0 none (by omega) (by omega)
    exact ⟨h.1, h.2⟩

theorem C10_post_status_errors_not_retried_witness :
    (download_with_retry bodyFailAfterOneFail 3).result = .error (.bodyRead 7) ∧
    (download_with_retry bodyFailAfterOneFail 3).attempts = 2 ∧
    (download_segment byteFailSegOracle 12).result = .error (.bodyRead 9) ∧
    (download_segment byteFailSegOracle 12).attempts = 1 ∧
    (download_segment writeFailSegOracle 12).result = .error (.writeFile 3) ∧
    (download_segment writeFailSegOracle 12).attempts = 1 := by
  have h1 := C10_post_status_errors_not_retried.1 bodyFailAfterOneFail 3 1 200
    (FetchErr.bodyRead 7) (by omega) (by decide) rfl (by decide)
  have h2 := C10_post_status_errors_not_retried.2.1 byteFailSegOracle 12 0 200
    (FetchErr.bodyRead 9) (.ok ()) (by omega) (by decide) rfl (by decide)
  have h3 := C10_post_status_errors_not_retried.2.2 writeFailSegOracle 12 0 200
    (FetchErr.writeFile 3) [1, 2] (by omega) (by decide) rfl (by decide)
  exact ⟨h1.1, h1.2, h2.1, h2.2, h3.1, h3.2⟩

/-! ## Claims C8 and C9: the ordered assembler -/

/-- C8 counterexample: a scratch area for a run with work list length 2
holding only index 0's blob (index 1 missing): `concatenate_files`
succeeds with the single present blob — it has no completeness check — so
the claim that assembly fails on a missing index is false. -/
theorem C8_counterexample :
    concatenate_files (β := Nat) [(segName 0, [7])] = .ok [7] ∧
    ¬ ∃ e, concatenate_files (β := Nat) [(segName 0, [7])] = .error e := by
  constructor
  · decide
  · rintro ⟨e, he⟩
    rw [show concatenate_files (β := Nat) [(segName 0, [7])] = .ok [7]
      from by decide] at he
    cases he

/-- C8 (amended): assembly never fails on a missing index.  For any
strictly increasing list of present indices (below the padding bound) it
succeeds and concatenates exactly the present blobs in index order,
silently skipping the absent indices. -/
theorem C8_assembly_skips_missing (idxs : List Nat) (blob : Nat → List Nat)
    (hsorted : idxs.Pairwise (· < ·)) (hb : ∀ i ∈ idxs, i < 100000) :
    concatenate_files (idxs.map fun i => (segName i, blob i)) =
      .ok (idxs.map blob).flatten := by
  unfold concatenate_files
  have hfilter : (idxs.map fun i => (segName i, blob i)).filter
      (fun e => extIsTs e.1) = idxs.map fun i => (segName i, blob i) := by
    rw [List.filter_eq_self]
    intro e he
    obtain ⟨i, _, rfl⟩ := List.mem_map.mp he
    exact extIsTs_segName i
  rw [hfilter]
  have hsorted' : ((idxs.map fun i => (segName i, blob i)) :
      List (List Char × List Nat)).Pairwise nameLe := by
    rw [List.pairwise_map]
    refine hsorted.imp_of_mem ?_
    intro a b _ hb2 hab
    show lexLe (segName a) (segName b) = true
    rw [lexLe_iff]
    exact Or.inl (segName_mono a b hab (hb b hb2))
  show (Except.ok ((List.insertionSort nameLe
      (idxs.map fun i => (segName i, blob i))).map Prod.snd).flatten :
    Except FsErr (List Nat)) = .ok (idxs.map blob).flatten
  rw [List.Sorted.insertionSort_eq hsorted', List.map_map]
  rfl

theorem C8_assembly_skips_missing_witness :
    concatenate_files (([0, 2] : List Nat).map
      fun i => (segName i, [i])) = .ok (([0, 2] : List Nat).map
        fun i => [i]).flatten :=
  C8_assembly_skips_missing [0, 2] (fun i => [i]) (by decide) (by decide)

instance : IsTrans (List Char) lexLeP :=
  ⟨fun _ _ _ => lexLe_trans _ _ _⟩

instance : IsTotal (List Char) lexLeP :=
  ⟨lexLe_total⟩

/-- C9 (amended): for every `N ≤ 100000`, sorting the zero-padded blob
file names lexicographically yields the same sequence as sorting the
indices numerically and then naming them: below 100000 every padded name
has exactly five digits, where lexicographic and numeric order agree. -/
theorem C9_name_sort_matches_numeric (n : Nat) (hn : n ≤ 100000) :
    List.insertionSort lexLeP ((List.range n).map segName) =
      (List.insertionSort (· ≤ ·) (List.range n)).map segName := by
  rw [List.Sorted.insertionSort_eq (List.sorted_le_range n)]
  apply List.Sorted.insertionSort_eq
  rw [List.Sorted, List.pairwise_map]
  refine (List.pairwise_lt_range n).imp_of_mem ?_
  intro a b _ hb hab
  show lexLe (segName a) (segName b) = true
  rw [lexLe_iff]
  exact Or.inl (segName_mono a b hab (lt_of_lt_of_le (List.mem_range.mp hb) hn))

theorem C9_name_sort_matches_numeric_witness :
    List.insertionSort lexLeP ((List.range 3).map segName) =
      (List.insertionSort (· ≤ ·) (List.range 3)).map segName :=
  C9_name_sort_matches_numeric 3 (by norm_num)

/-- C9 counterexample: at N = 100001 the name of index 100000 is six digits
long ("100000.ts"), which sorts lexicographically *before* "10001.ts", so
sorting the names no longer matches sorting the indices numerically. -/
theorem C9_counterexample :
    ¬ (List.insertionSort lexLeP ((List.range 100001).map segName) =
      (List.insertionSort (· ≤ ·) (List.range 100001)).map segName) := by
  intro h
  rw [List.Sorted.insertionSort_eq (List.sorted_le_range 100001)] at h
  have hsorted : ((List.range 100001).map segName).Pairwise lexLeP := by
    rw [← h]
    exact List.sorted_insertionSort lexLeP _
  have hlen : ((List.range 100001).map segName).length = 100001 := by
    rw [List.length_map, List.length_range]
  have hrel := List.pairwise_iff_get.mp hsorted
    ⟨10001, by rw [hlen]; norm_num⟩ ⟨100000, by rw [hlen]; norm_num⟩
    (by rw [Fin.mk_lt_mk]; norm_num)
  simp only [List.get_eq_getElem, List.getElem_map, List.getElem_range] at hrel
  have hfalse : lexLe (segName 10001) (segName 100000) = false := by decide
  unfold lexLeP at hrel
  rw [hrel] at hfalse
  cases hfalse

/-! ## Claim C1: end-to-end output ordering -/

/-- C1 (amended): for every run with work list of length `N ≤ 100000` that
the scheduler completes without error — under any completion order
(`outcome`/`pick` arbitrary) and any order in which the directory listing
returns the per-index blobs — the output is the concatenation of the
downloaded blobs in ascending segment-index order. -/
theorem C1_output_is_ordered_concat (o : Nat → Bool) (p : Nat → Nat)
    (n : Nat) (blob : Nat → List Nat) (dir : List (List Char × List Nat))
    (hn : n ≤ 100000) (hok : (schedule o p n).err = none)
    (hdir : List.Perm dir ((schedule o p n).completed.map
      fun i => (segName i, blob i))) :
    concatenate_files dir = .ok ((List.range n).map blob).flatten := by
  have hperm : List.Perm (List.range n) (schedule o p n).completed :=
    schedule_perm_none o p n hok
  apply concatenate_of_perm_target n hn blob
  exact hdir.trans ((hperm.map _).symm)

/-- C1 witness: two segments, both completing (completion order chosen by
the oracle), directory listed in reverse name order: the output is
blob 0 followed by blob 1. -/
theorem C1_output_is_ordered_concat_witness :
    concatenate_files [(segName 1, [1]), (segName 0, [0])] =
      .ok ((List.range 2).map (fun i : Nat => [i])).flatten :=
  C1_output_is_ordered_concat (fun _ => true) (fun _ => 0) 2 (fun i => [i])
    [(segName 1, [1]), (segName 0, [0])] (by norm_num) (by decide) (by decide)

/-- C1 counterexample: a successful run with N = 100001 segments.  Index
100000's scratch name pads to six digits and sorts lexicographically before
"10001.ts", so `concatenate_files` does *not* produce the ascending-index
concatenation: the claim fails for work lists longer than 100000. -/
theorem C1_counterexample :
    (schedule (fun _ => true) (fun _ => 0) 100001).err = none ∧
    ¬ (concatenate_files
        ((schedule (fun _ => true) (fun _ => 0) 100001).completed.map
          fun i => (segName i, blob6 i)) =
      .ok ((List.range 100001).map blob6).flatten) := by
  have herr : (schedule (fun _ => true) (fun _ => 0) 100001).err = none :=
    schedule_err_none_of_all_ok (fun _ => true) (fun _ => 0)
      (fun _ => rfl) 100001
  refine ⟨herr, ?_⟩
  intro hcontra
  set comp := (schedule (fun _ => true) (fun _ => 0) 100001).completed
    with hcompdef
  have hperm : List.Perm (List.range 100001) comp :=
    schedule_perm_none (fun _ => true) (fun _ => 0) 100001 herr
  have hdperm : List.Perm (comp.map fun i => (segName i, blob6 i))
      ((List.range 100001).map fun i => (segName i, blob6 i)) :=
    (hperm.map _).symm
  have hfilter : (comp.map fun i => (segName i, blob6 i)).filter
      (fun e => extIsTs e.1) = comp.map fun i => (segName i, blob6 i) := by
    rw [List.filter_eq_self]
    intro e he
    obtain ⟨i, _, rfl⟩ := List.mem_map.mp (hdperm.subset he)
    exact extIsTs_segName i
  unfold concatenate_files at hcontra
  rw [hfilter] at hcontra
  have hflat : ((List.insertionSort nameLe
      (comp.map fun i => (segName i, blob6 i))).map Prod.snd).flatten =
      ((List.range 100001).map blob6).flatten := by
    injection hcontra
  have hpermS : List.Perm (List.insertionSort nameLe
      (comp.map fun i => (segName i, blob6 i)))
      ((List.range 100001).map fun i => (segName i, blob6 i)) :=
    (List.perm_insertionSort nameLe _).trans hdperm
  have hsndT : ((List.range 100001).map
      fun i => (segName i, blob6 i)).map Prod.snd =
      (List.range 100001).map blob6 := by
    rw [List.map_map]
    rfl
  have hlen1 : ∀ x ∈ (List.insertionSort nameLe
      (comp.map fun i => (segName i, blob6 i))).map Prod.snd, x.length = 6 := by
    intro x hx
    obtain ⟨pr, hpr, rfl⟩ := List.mem_map.mp hx
    obtain ⟨i, _, rfl⟩ := List.mem_map.mp (hpermS.subset hpr)
    exact fixedDigits_length 6 i
  have hlen2 : ∀ x ∈ ((List.range 100001).map
      fun i => (segName i, blob6 i)).map Prod.snd, x.length = 6 := by
    intro x hx
    obtain ⟨pr, hpr, rfl⟩ := List.mem_map.mp hx
    obtain ⟨i, _, rfl⟩ := List.mem_map.mp hpr
    exact fixedDigits_length 6 i
  have hsndeq : (List.insertionSort nameLe
      (comp.map fun i => (segName i, blob6 i))).map Prod.snd =
      ((List.range 100001).map fun i => (segName i, blob6 i)).map Prod.snd := by
    apply flatten_inj_fixed 6 (by norm_num) _ _ hlen1 hlen2
    rw [hflat, hsndT]
  have hnodup : (((List.range 100001).map
      fun i => (segName i, blob6 i)).map Prod.snd).Nodup := by
    rw [hsndT]
    apply List.Nodup.map_on ?_ (List.nodup_range 100001)
    intro i hi j hj hij
    have hi6 : i < 10 ^ 6 := by
      have := List.mem_range.mp hi
      norm_num
      omega
    have hj6 : j < 10 ^ 6 := by
      have := List.mem_range.mp hj
      norm_num
      omega
    exact fixedDigits_inj 6 i j hi6 hj6 hij
  have heqST := eq_of_perm_of_map_snd _ _ hpermS hsndeq hnodup
  have hsortedT : ((List.range 100001).map
      fun i => (segName i, blob6 i)).Pairwise nameLe := by
    rw [← heqST]
    exact List.sorted_insertionSort nameLe _
  have hlenT : (((List.range 100001).map
      fun i => (segName i, blob6 i))).length = 100001 := by
    rw [List.length_map, List.length_range]
  have hrel := List.pairwise_iff_get.mp hsortedT
    ⟨10001, by rw [hlenT]; norm_num⟩ ⟨100000, by rw [hlenT]; norm_num⟩
    (by rw [Fin.mk_lt_mk]; norm_num)
  simp only [List.get_eq_getElem, List.getElem_map, List.getElem_range] at hrel
  have hfalse : lexLe (segName 10001) (segName 100000) = false := by decide
  have htrue : lexLe (segName 10001) (segName 100000) = true := hrel
  rw [htrue] at hfalse
  cases hfalse

end Getcou
